import Mathlib

/-!
Verification development for the nomos-node data-availability core.

The source under study is the KZG/FK20 batched proof generator
(nomos-da/kzgrs/src/fk20.rs) and the DA verifier protocol
(nomos-da/kzgrs-backend/src/verifier.rs).

Elliptic-curve points in the source (ark_bls12_381 G1) form a cyclic group of
prime order r generated by the curve generator, so the map a ↦ a • G is a group
isomorphism from the scalar field Fr onto G1.  Group elements are therefore
embedded by their discrete logarithm: a group element is a scalar, point
addition is field addition, scalar multiplication is field multiplication, and
a pairing equality e(a • G, c • H) = e(b • G, d • H) is the field equation
a * c = b * d.  The scalar field itself is kept abstract as any field F, with
the roots of unity used by the evaluation domains supplied as hypotheses.

The arkworks evaluation domain of size n is represented by its generator
(a primitive n-th root of unity); since the source builds a fresh domain from
each length via GeneralEvaluationDomain::new, the embedding threads a function
dgen : ℕ → F giving the domain generator chosen for each size.
-/

namespace NomosDA

section Defs

variable {F : Type} [Field F] [DecidableEq F]

/-- Forward FFT of arkworks (EvaluationDomain::fft) in the dlog embedding: the
input is resized to the domain size n (zero padding or truncating, as the
arkworks implementation does) and the i-th output is the evaluation at the
i-th domain element, that is the linear combination with coefficients
ω ^ (i * j). -/
def fft (ω : F) (n : ℕ) (v : List F) : List F :=
  (List.range n).map fun i => ∑ j ∈ Finset.range n, ω ^ (i * j) * v.getD j 0

/-- Inverse FFT of arkworks (EvaluationDomain::ifft_in_place): the transform
with the inverse root, scaled by the inverse of the domain size. -/
def ifft (ω : F) (n : ℕ) (v : List F) : List F :=
  (List.range n).map fun i =>
    (n : F)⁻¹ * ∑ j ∈ Finset.range n, ω⁻¹ ^ (i * j) * v.getD j 0

/-- Rust usize::is_power_of_two. -/
def isPowerOfTwo : ℕ → Bool
  | 0 => false
  | 1 => true
  | n + 2 => (n + 2) % 2 == 0 && isPowerOfTwo ((n + 2) / 2)

/-- ark_poly_commit kzg10::Proof in the dlog embedding: the witness commitment
w together with the optional blinding field element random_v. -/
structure Proof (F : Type) where
  w : F
  random_v : Option F

/-- Modelled from the spec: the global parameters hold the SRS, an ordered
sequence of group elements (powers of the generator).  powersOfG is the G1 side
in dlog form (base the G1 generator); tau is the trapdoor, i.e. the dlog
(base the G2 generator) of the beta_h element the pairing check uses. -/
structure GlobalParameters (F : Type) where
  powersOfG : List F
  tau : F

/-- fk20.rs Toeplitz1Cache: the precomputed stage-one extended vector. -/
structure Toeplitz1Cache (F : Type) where
  v : List F

/-- fk20.rs toeplitz1: extend the (reversed) SRS prefix with zeroes to twice
the degree and apply a forward FFT of size 2·degree over the group. -/
def toeplitz1 (dgen : ℕ → F) (global_parameters : List F) (polynomial_degree : ℕ) : List F :=
  let vector_extended := global_parameters ++ List.replicate polynomial_degree (0 : F)
  fft (dgen (polynomial_degree * 2)) (polynomial_degree * 2) vector_extended

/-- fk20.rs toeplitz2: FFT the Toeplitz coefficients over a domain of their
own length and multiply elementwise against the extended vector. -/
def toeplitz2 (dgen : ℕ → F) (coefficients : List F) (extended_vector : List F) : List F :=
  let toeplitz_coefficients_fft :=
    fft (dgen coefficients.length) coefficients.length coefficients
  (extended_vector.zip toeplitz_coefficients_fft).map fun vc => vc.1 * vc.2

/-- fk20.rs toeplitz3: inverse FFT over a domain of the input's length. -/
def toeplitz3 (dgen : ℕ → F) (h_extended_fft : List F) : List F :=
  ifft (dgen h_extended_fft.length) h_extended_fft.length h_extended_fft

/-- The extended vector used by fk20_batch_generate_elements_proofs: the cache
contents when a Toeplitz1Cache is supplied, otherwise toeplitz1 applied to the
reversed first d SRS elements. -/
def fk20_extended_vector (dgen : ℕ → F) (polynomial : List F) (gp : GlobalParameters F)
    (cache : Option (Toeplitz1Cache F)) : List F :=
  match cache with
  | some c => c.v
  | none => toeplitz1 dgen ((gp.powersOfG.take polynomial.length).reverse) polynomial.length

/-- The h vector of fk20_batch_generate_elements_proofs: toeplitz3 of
toeplitz2 of the zero-prefixed coefficient vector against the extended
vector. -/
def fk20_h_vector (dgen : ℕ → F) (polynomial : List F) (gp : GlobalParameters F)
    (cache : Option (Toeplitz1Cache F)) : List F :=
  let toeplitz_coefficients := List.replicate polynomial.length (0 : F) ++ polynomial
  toeplitz3 dgen
    (toeplitz2 dgen toeplitz_coefficients (fk20_extended_vector dgen polynomial gp cache))

/-- fk20.rs fk20_batch_generate_elements_proofs.  The debug_assert guards on
the polynomial degree (a power of two, and no longer than the SRS) are
modelled as a fail-fast check returning none, which is their behaviour in the
debug builds the repository tests run under.  The per-proof fresh randomness
drawn from OsRng is supplied as an explicit stream rand indexed by the output
position; each output element g1 of the size-d forward FFT of the h vector is
blinded as w = g1 + G * random_v with G the first SRS element. -/
def fk20_batch_generate_elements_proofs (dgen : ℕ → F) (polynomial : List F)
    (gp : GlobalParameters F) (cache : Option (Toeplitz1Cache F)) (rand : ℕ → F) :
    Option (List (Proof F)) :=
  if polynomial.length ≤ gp.powersOfG.length ∧ isPowerOfTwo polynomial.length = true then
    some ((((fft (dgen polynomial.length) polynomial.length
          (fk20_h_vector dgen polynomial gp cache)).zip
        (List.range polynomial.length)).map
      fun gi => { w := gi.1 + gp.powersOfG.getD 0 0 * rand gi.2
                  random_v := some (rand gi.2) }))
  else none

/-- fk20.rs Toeplitz1Cache::with_size: toeplitz1 of the reversed first
polynomial_degree SRS elements. -/
def Toeplitz1Cache.with_size (dgen : ℕ → F) (gp : GlobalParameters F)
    (polynomial_degree : ℕ) : Toeplitz1Cache F :=
  ⟨toeplitz1 dgen ((gp.powersOfG.take polynomial_degree).reverse) polynomial_degree⟩

/-- Evaluation of a coefficient list as a polynomial. -/
def evalPoly (p : List F) (x : F) : F :=
  ∑ j ∈ Finset.range p.length, p.getD j 0 * x ^ j

/-- Modelled from the spec: commit(polynomial) is deterministic and fails only
if the polynomial is longer than the SRS; it is the linear combination of the
coefficients against the SRS, i.e. p(τ) in the exponent. -/
def commit_polynomial (p : List F) (gp : GlobalParameters F) : Option F :=
  if gp.powersOfG.length < p.length then none
  else some (∑ j ∈ Finset.range p.length, p.getD j 0 * gp.powersOfG.getD j 0)

/-- The witness polynomial (p(X) − p(u)) / (X − u) of the single-point KZG
opening, given by synthetic division: coefficient j is
∑ k ∈ (j, deg), cₖ u^(k−1−j). -/
def witnessPoly (p : List F) (u : F) : List F :=
  (List.range (p.length - 1)).map fun j =>
    ∑ k ∈ Finset.Ico (j + 1) p.length, p.getD k 0 * u ^ (k - 1 - j)

/-- Modelled from the spec: open(polynomial, index) (generate_element_proof in
kzgrs, not under src) produces the commitment to the witness polynomial of the
opening at the index-th domain element. -/
def generate_element_proof (i : ℕ) (p : List F) (ω : F) (gp : GlobalParameters F) :
    Option (Proof F) :=
  match commit_polynomial (witnessPoly p (ω ^ i)) gp with
  | none => none
  | some w => some { w := w, random_v := none }

/-- Modelled from the spec: verify(index, value, commitment, proof, domain,
params) (verify_element_proof in kzgrs, not under src) is the pairing check
validating the (index, value) pair against the commitment; the random_v
blinding term does not affect validity, so the check removes it from w.  In
the dlog embedding the pairing equation e(C − v·G, H) = e(w − b·G, τ·H − u·H)
is the field equation C − v = (w − b) · (τ − u) with u the index-th domain
element. -/
def verify_element_proof (i : ℕ) (v : F) (commitment : F) (pr : Proof F) (ω : F)
    (gp : GlobalParameters F) : Bool :=
  decide (commitment - v = (pr.w - pr.random_v.getD 0) * (gp.tau - ω ^ i))

end Defs

section VerifierDefs

variable {F Cm Pr SK PK Sig : Type}

/-- The interface of the kzgrs / kzgrs-backend / blst primitives the verifier
calls (bytes_to_polynomial, commit_polynomial, verify_element_proof,
hash_column_and_commitment, field_element_from_bytes_le,
build_attestation_message, SecretKey::sign, SecretKey::sk_to_pk), none of
which are under src.  They are kept abstract: the verifier's control flow is
the code under study and is proved for every instantiation of this record. -/
structure VerifierEnv (F Cm Pr SK PK Sig : Type) where
  bytesToPolynomial : List ℕ → Option (List F × List F)
  commitPolynomial : List F → Option Cm
  verifyElementProof : ℕ → F → Cm → Pr → Bool
  hashColumnAndCommitment : List (List ℕ) → Cm → List ℕ
  fieldElementFromBytesLe : List ℕ → F
  buildAttestationMessage : Cm → List Cm → List ℕ
  sign : SK → List ℕ → List ℕ → List ℕ → Sig
  skToPk : SK → PK

/-- verifier.rs DaBlob.  A Chunk is a byte block (List ℕ) and a Column an
ordered sequence of Chunks. -/
structure DaBlob (Cm Pr : Type) where
  column : List (List ℕ)
  column_commitment : Cm
  aggregated_column_commitment : Cm
  aggregated_column_proof : Pr
  rows_commitments : List Cm
  rows_proofs : List Pr

/-- common.rs Attestation: a single signature. -/
structure Attestation (Sig : Type) where
  signature : Sig

/-- verifier.rs DaVerifier: the signing key and the verifier's index. -/
structure DaVerifier (SK : Type) where
  sk : SK
  index : ℕ

/-- verifier.rs DaBlob::id: the attestation message built from the aggregated
column commitment and the row commitments. -/
def DaBlob.id (env : VerifierEnv F Cm Pr SK PK Sig) (blob : DaBlob Cm Pr) : List ℕ :=
  env.buildAttestationMessage blob.aggregated_column_commitment blob.rows_commitments

/-- itertools Iterator::find_position: the first index satisfying the
predicate, if any. -/
def findPosition (p : PK → Bool) : List PK → Option ℕ
  | [] => none
  | x :: xs => if p x then some 0 else (findPosition p xs).map (· + 1)

/-- verifier.rs DaVerifier::new: look up the position of the key's public key
in the roster; the expect on a missing key is modelled as a fail-fast none. -/
def DaVerifier.new [DecidableEq PK] (env : VerifierEnv F Cm Pr SK PK Sig) (sk : SK)
    (nodes_public_keys : List PK) : Option (DaVerifier SK) :=
  let self_pk := env.skToPk sk
  match findPosition (fun pk => decide (pk = self_pk)) nodes_public_keys with
  | none => none
  | some index => some ⟨sk, index⟩

/-- verifier.rs DaVerifier::verify_column (Gate 1): lift the column bytes to a
polynomial, recommit, require exact equality with the claimed column
commitment, then check the hash of (column, commitment) as the index-th
opening of the aggregated column commitment. -/
def DaVerifier.verify_column [DecidableEq Cm] (env : VerifierEnv F Cm Pr SK PK Sig)
    (column : List (List ℕ)) (column_commitment : Cm) (aggregated_column_commitment : Cm)
    (aggregated_column_proof : Pr) (index : ℕ) : Bool :=
  match env.bytesToPolynomial column.flatten with
  | none => false
  | some (_, polynomial) =>
    match env.commitPolynomial polynomial with
    | none => false
    | some computed_column_commitment =>
      if computed_column_commitment ≠ column_commitment then false
      else
        let column_hash := env.hashColumnAndCommitment column column_commitment
        let element := env.fieldElementFromBytesLe column_hash
        env.verifyElementProof index element aggregated_column_commitment
          aggregated_column_proof

/-- verifier.rs DaVerifier::verify_chunk: check the chunk, read as a field
element, as the index-th opening of the commitment under the proof. -/
def DaVerifier.verify_chunk (env : VerifierEnv F Cm Pr SK PK Sig) (chunk : List ℕ)
    (commitment : Cm) (pr : Pr) (index : ℕ) : Bool :=
  env.verifyElementProof index (env.fieldElementFromBytesLe chunk) commitment pr

/-- The row loop of DaVerifier::verify_chunks: check rows in order and return
at the first failure. -/
def DaVerifier.verify_chunks_loop (env : VerifierEnv F Cm Pr SK PK Sig) (index : ℕ) :
    List (List ℕ × Cm × Pr) → Bool
  | [] => true
  | (chunk, commitment, pr) :: rest =>
    if ¬ DaVerifier.verify_chunk env chunk commitment pr index then false
    else DaVerifier.verify_chunks_loop env index rest

/-- verifier.rs DaVerifier::verify_chunks (Gate 2): reject on a length
mismatch across the three sequences, then run the row loop over the zipped
triples. -/
def DaVerifier.verify_chunks (env : VerifierEnv F Cm Pr SK PK Sig)
    (chunks : List (List ℕ)) (commitments : List Cm) (proofs : List Pr)
    (index : ℕ) : Bool :=
  if ¬ (chunks.length = commitments.length ∧ commitments.length = proofs.length) then false
  else DaVerifier.verify_chunks_loop env index (chunks.zip (commitments.zip proofs))

/-- verifier.rs DaVerifier::build_attestation: sign the attestation message
with empty domain-separation and augmentation tags. -/
def DaVerifier.build_attestation (env : VerifierEnv F Cm Pr SK PK Sig)
    (ver : DaVerifier SK) (blob : DaBlob Cm Pr) : Attestation Sig :=
  let message :=
    env.buildAttestationMessage blob.aggregated_column_commitment blob.rows_commitments
  ⟨env.sign ver.sk message [] []⟩

/-- verifier.rs DaVerifier::verify: Gate 1 then Gate 2, then the signed
attestation. -/
def DaVerifier.verify [DecidableEq Cm] (env : VerifierEnv F Cm Pr SK PK Sig)
    (ver : DaVerifier SK) (blob : DaBlob Cm Pr) : Option (Attestation Sig) :=
  if ¬ DaVerifier.verify_column env blob.column blob.column_commitment
      blob.aggregated_column_commitment blob.aggregated_column_proof ver.index then none
  else if ¬ DaVerifier.verify_chunks env blob.column blob.rows_commitments
      blob.rows_proofs ver.index then none
  else some (DaVerifier.build_attestation env ver blob)

end VerifierDefs

end NomosDA

namespace NomosDA

section VerifierTheorems

variable {F Cm Pr SK PK Sig : Type}

lemma verify_chunks_loop_true_iff (env : VerifierEnv F Cm Pr SK PK Sig) (index : ℕ)
    (l : List (List ℕ × Cm × Pr)) :
    DaVerifier.verify_chunks_loop env index l = true ↔
      ∀ t ∈ l, DaVerifier.verify_chunk env t.1 t.2.1 t.2.2 index = true := by
  induction l with
  | nil => simp [DaVerifier.verify_chunks_loop]
  | cons hd tl ih =>
    obtain ⟨c, cm, pr⟩ := hd
    by_cases h : DaVerifier.verify_chunk env c cm pr index
    · simp [DaVerifier.verify_chunks_loop, h, ih]
    · simp [DaVerifier.verify_chunks_loop, h]

lemma findPosition_eq_none_iff (p : PK → Bool) (l : List PK) :
    findPosition p l = none ↔ ∀ x ∈ l, p x = false := by
  induction l with
  | nil => simp [findPosition]
  | cons hd tl ih =>
    by_cases h : p hd
    · simp [findPosition, h]
    · simp [findPosition, h, ih, Bool.not_eq_true] at *

lemma findPosition_spec (p : PK → Bool) (l : List PK) (i : ℕ)
    (h : findPosition p l = some i) :
    i < l.length ∧ (∀ d, p (l.getD i d) = true) ∧
      ∀ j, j < i → ∀ d, p (l.getD j d) = false := by
  induction l generalizing i with
  | nil => simp [findPosition] at h
  | cons hd tl ih =>
    by_cases hp : p hd
    · simp [findPosition, hp] at h
      subst h
      refine ⟨by simp, fun d => hp, fun j hj => by omega⟩
    · simp [findPosition, hp] at h
      obtain ⟨i1, hi1, rfl⟩ := h
      obtain ⟨h1, h2, h3⟩ := ih i1 hi1
      refine ⟨by simp; omega, fun d => by simpa using h2 d, ?_⟩
      intro j hj d
      cases j with
      | zero => simpa [Bool.not_eq_true] using hp
      | succ j1 => simpa using h3 j1 (by omega) d

/-- C3: a DaBlob whose column, rows_commitments and rows_proofs lengths are
not all equal is rejected by DaVerifier::verify with no attestation; with the
lengths all equal, Gate 2 succeeds exactly when every row j verifies as the
index-th opening of rows_commitments[j] under rows_proofs[j], and the row loop
returns the first failure without examining later rows. -/
theorem claim_c3 [DecidableEq Cm] (env : VerifierEnv F Cm Pr SK PK Sig)
    (ver : DaVerifier SK) (blob : DaBlob Cm Pr) :
    (¬ (blob.column.length = blob.rows_commitments.length ∧
        blob.rows_commitments.length = blob.rows_proofs.length) →
      DaVerifier.verify env ver blob = none) ∧
    (∀ (chunks : List (List ℕ)) (commitments : List Cm) (proofs : List Pr) (index : ℕ)
      (dc : Cm) (dp : Pr),
      chunks.length = commitments.length → commitments.length = proofs.length →
      (DaVerifier.verify_chunks env chunks commitments proofs index = true ↔
        ∀ j, j < chunks.length →
          DaVerifier.verify_chunk env (chunks.getD j []) (commitments.getD j dc)
            (proofs.getD j dp) index = true)) ∧
    (∀ (chunk : List ℕ) (commitment : Cm) (pr : Pr) (index : ℕ)
      (rest : List (List ℕ × Cm × Pr)),
      DaVerifier.verify_chunk env chunk commitment pr index = false →
      DaVerifier.verify_chunks_loop env index ((chunk, commitment, pr) :: rest) = false) := by
  refine ⟨?_, ?_, ?_⟩
  · intro hmm
    have hchunks : DaVerifier.verify_chunks env blob.column blob.rows_commitments
        blob.rows_proofs ver.index = false := by
      simp [DaVerifier.verify_chunks, hmm]
    by_cases hcol : DaVerifier.verify_column env blob.column blob.column_commitment
        blob.aggregated_column_commitment blob.aggregated_column_proof ver.index
    · simp [DaVerifier.verify, hcol, hchunks]
    · simp [DaVerifier.verify, hcol]
  · intro chunks commitments proofs index dc dp h1 h2
    have hlen : (chunks.zip (commitments.zip proofs)).length = chunks.length := by
      simp [List.length_zip]
      omega
    rw [DaVerifier.verify_chunks, if_neg (by simp [h1, h2]), verify_chunks_loop_true_iff]
    constructor
    · intro h j hj
      have hj2 : j < (chunks.zip (commitments.zip proofs)).length := by omega
      have hm := h _ (List.getElem_mem hj2)
      simp only [List.getElem_zip] at hm
      rw [List.getD_eq_getElem chunks [] (by omega),
        List.getD_eq_getElem commitments dc (by omega),
        List.getD_eq_getElem proofs dp (by omega)]
      exact hm
    · intro h t ht
      obtain ⟨j, hj, rfl⟩ := List.mem_iff_getElem.mp ht
      have hj1 : j < chunks.length := by omega
      have := h j hj1
      rw [List.getD_eq_getElem chunks [] (by omega),
        List.getD_eq_getElem commitments dc (by omega),
        List.getD_eq_getElem proofs dp (by omega)] at this
      simpa [List.getElem_zip] using this
  · intro chunk commitment pr index rest hfail
    simp [DaVerifier.verify_chunks_loop, hfail]

/-- C4: Gate 1 (verify_column) succeeds exactly when the column bytes lift to
a polynomial, the recomputed commitment equals the blob's column commitment
bit-for-bit, and the hash of (column, column_commitment), read as a field
element, verifies as the index-th opening of the aggregated column commitment
under the aggregated column proof; and whenever Gate 1 fails (conversion
failure, commitment mismatch or failed pairing check), verify returns none. -/
theorem claim_c4 [DecidableEq Cm] (env : VerifierEnv F Cm Pr SK PK Sig) :
    (∀ (column : List (List ℕ)) (column_commitment aggregated_column_commitment : Cm)
      (aggregated_column_proof : Pr) (index : ℕ),
      DaVerifier.verify_column env column column_commitment aggregated_column_commitment
          aggregated_column_proof index = true ↔
        ∃ evals polynomial,
          env.bytesToPolynomial column.flatten = some (evals, polynomial) ∧
          env.commitPolynomial polynomial = some column_commitment ∧
          env.verifyElementProof index
            (env.fieldElementFromBytesLe
              (env.hashColumnAndCommitment column column_commitment))
            aggregated_column_commitment aggregated_column_proof = true) ∧
    (∀ (ver : DaVerifier SK) (blob : DaBlob Cm Pr),
      DaVerifier.verify_column env blob.column blob.column_commitment
        blob.aggregated_column_commitment blob.aggregated_column_proof ver.index = false →
      DaVerifier.verify env ver blob = none) := by
  constructor
  · intro column ccm acm apr index
    rcases hb : env.bytesToPolynomial column.flatten with _ | ⟨evals, polynomial⟩
    · simp [DaVerifier.verify_column, hb]
    · rcases hc : env.commitPolynomial polynomial with _ | c
      · simp [DaVerifier.verify_column, hb, hc]
      · by_cases he : c = ccm
        · subst he
          simp only [DaVerifier.verify_column, hb, hc, ne_eq, not_true_eq_false,
            if_false, ite_false, Option.some.injEq, Prod.mk.injEq]
          constructor
          · intro h
            exact ⟨evals, polynomial, ⟨rfl, rfl⟩, hc, h⟩
          · rintro ⟨e2, p2, ⟨rfl, rfl⟩, hcc, hv⟩
            exact hv
        · simp only [DaVerifier.verify_column, hb, hc, ne_eq, he, not_false_eq_true,
            if_true, ite_true]
          constructor
          · intro h
            exact absurd h (by simp)
          · rintro ⟨e2, p2, hbb, hcc, hv⟩
            cases hbb
            rw [hc] at hcc
            injection hcc with h3
            exact absurd h3 he
  · intro ver blob h
    simp [DaVerifier.verify, h]

/-- C5: when both gates pass, DaVerifier::verify returns an attestation whose
signature is over exactly the attestation message built from the aggregated
column commitment and the row commitments — the blob's id() — signed with
empty context tags. -/
theorem claim_c5 [DecidableEq Cm] (env : VerifierEnv F Cm Pr SK PK Sig)
    (ver : DaVerifier SK) (blob : DaBlob Cm Pr)
    (hcol : DaVerifier.verify_column env blob.column blob.column_commitment
      blob.aggregated_column_commitment blob.aggregated_column_proof ver.index = true)
    (hchunks : DaVerifier.verify_chunks env blob.column blob.rows_commitments
      blob.rows_proofs ver.index = true) :
    DaVerifier.verify env ver blob =
      some ⟨env.sign ver.sk (DaBlob.id env blob) [] []⟩ := by
  simp [DaVerifier.verify, hcol, hchunks, DaVerifier.build_attestation, DaBlob.id]

/-- C6: DaBlob::id is a pure function of exactly the pair
(aggregated_column_commitment, rows_commitments): blobs agreeing on those two
fields have identical ids whatever their other fields contain. -/
theorem claim_c6 (env : VerifierEnv F Cm Pr SK PK Sig) (b1 b2 : DaBlob Cm Pr)
    (hagg : b1.aggregated_column_commitment = b2.aggregated_column_commitment)
    (hrows : b1.rows_commitments = b2.rows_commitments) :
    DaBlob.id env b1 = DaBlob.id env b2 := by
  simp [DaBlob.id, hagg, hrows]

/-- C9: DaVerifier construction fails when the signing key's public key is
absent from the roster, and otherwise stores as index the first position at
which that public key occurs in the roster ordering. -/
theorem claim_c9 [DecidableEq PK] (env : VerifierEnv F Cm Pr SK PK Sig) (sk : SK)
    (roster : List PK) :
    (env.skToPk sk ∉ roster → DaVerifier.new env sk roster = none) ∧
    (env.skToPk sk ∈ roster → ∃ ver, DaVerifier.new env sk roster = some ver ∧
      ver.sk = sk ∧ ver.index < roster.length ∧
      (∀ d, roster.getD ver.index d = env.skToPk sk) ∧
      ∀ j, j < ver.index → ∀ d, roster.getD j d ≠ env.skToPk sk) := by
  constructor
  · intro hmem
    have : findPosition (fun pk => decide (pk = env.skToPk sk)) roster = none := by
      rw [findPosition_eq_none_iff]
      intro x hx
      simp only [decide_eq_false_iff_not]
      intro hxx
      exact hmem (hxx ▸ hx)
    simp [DaVerifier.new, this]
  · intro hmem
    rcases hfp : findPosition (fun pk => decide (pk = env.skToPk sk)) roster with _ | i
    · rw [findPosition_eq_none_iff] at hfp
      have := hfp _ hmem
      simp at this
    · obtain ⟨h1, h2, h3⟩ := findPosition_spec _ _ _ hfp
      refine ⟨⟨sk, i⟩, by simp [DaVerifier.new, hfp], rfl, h1, ?_, ?_⟩
      · intro d
        exact of_decide_eq_true (h2 d)
      · intro j hj d
        have := h3 j hj d
        simpa using this

/-- C10: with all three sequences empty the lengths are trivially equal, no
per-row check runs, and verify_chunks returns true for every index. -/
theorem claim_c10 (env : VerifierEnv F Cm Pr SK PK Sig) (index : ℕ) :
    DaVerifier.verify_chunks env ([] : List (List ℕ)) ([] : List Cm) ([] : List Pr)
      index = true := by
  simp [DaVerifier.verify_chunks, DaVerifier.verify_chunks_loop]

end VerifierTheorems

/-! Concrete instantiation of the primitive interface used by the witnesses. -/

def env0 : VerifierEnv ℕ ℕ ℕ ℕ ℕ (List ℕ) where
  bytesToPolynomial := fun b => some (b, b)
  commitPolynomial := fun p => some p.length
  verifyElementProof := fun _ _ _ _ => true
  hashColumnAndCommitment := fun _ _ => []
  fieldElementFromBytesLe := fun b => b.length
  buildAttestationMessage := fun c l => c :: l
  sign := fun sk m _ _ => sk :: m
  skToPk := fun sk => sk

def ver0 : DaVerifier ℕ := ⟨0, 0⟩

def blobMismatch : DaBlob ℕ ℕ := ⟨[[1]], 0, 0, 0, [], []⟩

def blobBadCommit : DaBlob ℕ ℕ := ⟨[[1]], 5, 0, 0, [5], [0]⟩

def blobGood : DaBlob ℕ ℕ := ⟨[[1, 2]], 2, 7, 3, [9], [4]⟩

def blobGood2 : DaBlob ℕ ℕ := ⟨[[3], [4]], 1, 7, 0, [9], [2]⟩

theorem claim_c3_witness :
    (¬ (blobMismatch.column.length = blobMismatch.rows_commitments.length ∧
        blobMismatch.rows_commitments.length = blobMismatch.rows_proofs.length)) ∧
    DaVerifier.verify env0 ver0 blobMismatch = none :=
  ⟨by decide, (claim_c3 env0 ver0 blobMismatch).1 (by decide)⟩

theorem claim_c4_witness :
    DaVerifier.verify_column env0 blobBadCommit.column blobBadCommit.column_commitment
      blobBadCommit.aggregated_column_commitment blobBadCommit.aggregated_column_proof
      ver0.index = false ∧
    DaVerifier.verify env0 ver0 blobBadCommit = none :=
  ⟨by decide, (claim_c4 env0).2 ver0 blobBadCommit (by decide)⟩

theorem claim_c5_witness :
    DaVerifier.verify_column env0 blobGood.column blobGood.column_commitment
      blobGood.aggregated_column_commitment blobGood.aggregated_column_proof
      ver0.index = true ∧
    DaVerifier.verify_chunks env0 blobGood.column blobGood.rows_commitments
      blobGood.rows_proofs ver0.index = true ∧
    DaVerifier.verify env0 ver0 blobGood =
      some ⟨env0.sign ver0.sk (DaBlob.id env0 blobGood) [] []⟩ :=
  ⟨by decide, by decide, claim_c5 env0 ver0 blobGood (by decide) (by decide)⟩

theorem claim_c6_witness :
    blobGood.aggregated_column_commitment = blobGood2.aggregated_column_commitment ∧
    blobGood.rows_commitments = blobGood2.rows_commitments ∧
    DaBlob.id env0 blobGood = DaBlob.id env0 blobGood2 :=
  ⟨by decide, by decide, claim_c6 env0 blobGood blobGood2 (by decide) (by decide)⟩

theorem claim_c9_witness :
    env0.skToPk 9 ∉ [3, 5] ∧ DaVerifier.new env0 9 [3, 5] = none :=
  ⟨by decide, (claim_c9 env0 9 [3, 5]).1 (by decide)⟩

end NomosDA

namespace NomosDA

section Fk20Structural

variable {F : Type} [Field F] [DecidableEq F]

lemma isPowerOfTwo_true_iff (n : ℕ) : isPowerOfTwo n = true ↔ ∃ k, n = 2 ^ k := by
  induction n using Nat.strong_induction_on with
  | _ n ih =>
    match n with
    | 0 =>
      simp only [isPowerOfTwo, Bool.false_eq_true, false_iff, not_exists]
      intro k hk
      have := pow_pos (show (0 : ℕ) < 2 by norm_num) k
      omega
    | 1 =>
      simp only [isPowerOfTwo, true_iff]
      exact ⟨0, rfl⟩
    | m + 2 =>
      rw [isPowerOfTwo, Bool.and_eq_true, beq_iff_eq, ih ((m + 2) / 2) (by omega)]
      constructor
      · rintro ⟨he, k, hk⟩
        have h2 : (2 : ℕ) ^ (k + 1) = 2 ^ k * 2 := pow_succ 2 k
        exact ⟨k + 1, by omega⟩
      · rintro ⟨k, hk⟩
        match k with
        | 0 => omega
        | k + 1 =>
          have h2 : (2 : ℕ) ^ (k + 1) = 2 ^ k * 2 := pow_succ 2 k
          refine ⟨by omega, k, by omega⟩

lemma fft_length (ω : F) (n : ℕ) (v : List F) : (fft ω n v).length = n := by
  simp [fft]

lemma ifft_length (ω : F) (n : ℕ) (v : List F) : (ifft ω n v).length = n := by
  simp [ifft]

lemma getD_map_range {α : Type} (f : ℕ → α) (n i : ℕ) (hi : i < n) (d : α) :
    ((List.range n).map f).getD i d = f i := by
  rw [List.getD_eq_getElem _ _ (by simpa using hi)]
  simp

lemma fft_getD (ω : F) (n : ℕ) (v : List F) (i : ℕ) (hi : i < n) :
    (fft ω n v).getD i 0 = ∑ j ∈ Finset.range n, ω ^ (i * j) * v.getD j 0 :=
  getD_map_range _ n i hi 0

lemma ifft_getD (ω : F) (n : ℕ) (v : List F) (i : ℕ) (hi : i < n) :
    (ifft ω n v).getD i 0 =
      (n : F)⁻¹ * ∑ j ∈ Finset.range n, ω⁻¹ ^ (i * j) * v.getD j 0 :=
  getD_map_range _ n i hi 0

lemma fk20_eq_some (dgen : ℕ → F) (p : List F) (gp : GlobalParameters F)
    (cache : Option (Toeplitz1Cache F)) (rand : ℕ → F)
    (hlen : p.length ≤ gp.powersOfG.length) (hpow : isPowerOfTwo p.length = true) :
    fk20_batch_generate_elements_proofs dgen p gp cache rand =
      some (((fft (dgen p.length) p.length (fk20_h_vector dgen p gp cache)).zip
        (List.range p.length)).map fun gi =>
          ⟨gi.1 + gp.powersOfG.getD 0 0 * rand gi.2, some (rand gi.2)⟩) := by
  rw [fk20_batch_generate_elements_proofs, if_pos ⟨hlen, hpow⟩]

lemma fk20_proofs_getD (dgen : ℕ → F) (p : List F) (gp : GlobalParameters F)
    (cache : Option (Toeplitz1Cache F)) (rand : ℕ → F) (i : ℕ) (hi : i < p.length) :
    (((fft (dgen p.length) p.length (fk20_h_vector dgen p gp cache)).zip
        (List.range p.length)).map fun gi =>
          (⟨gi.1 + gp.powersOfG.getD 0 0 * rand gi.2, some (rand gi.2)⟩ : Proof F)).getD i
        ⟨0, none⟩ =
      ⟨(fft (dgen p.length) p.length (fk20_h_vector dgen p gp cache)).getD i 0 +
        gp.powersOfG.getD 0 0 * rand i, some (rand i)⟩ := by
  have hf : i < (fft (dgen p.length) p.length (fk20_h_vector dgen p gp cache)).length := by
    rw [fft_length]
    exact hi
  have hz : i < ((fft (dgen p.length) p.length (fk20_h_vector dgen p gp cache)).zip
      (List.range p.length)).length := by
    rw [List.length_zip, fft_length, List.length_range]
    omega
  have hm : i < (((fft (dgen p.length) p.length (fk20_h_vector dgen p gp cache)).zip
      (List.range p.length)).map fun gi =>
        (⟨gi.1 + gp.powersOfG.getD 0 0 * rand gi.2, some (rand gi.2)⟩ : Proof F)).length := by
    rw [List.length_map]
    exact hz
  rw [List.getD_eq_getElem _ _ hm, List.getElem_map, List.getElem_zip, List.getElem_range,
    List.getD_eq_getElem _ _ hf]

/-- C7: for a polynomial of power-of-two degree d (within the SRS), the batch
generator returns exactly d proofs, the i-th having w equal to the i-th
element of the size-d forward FFT of the h vector plus random_v times the
first SRS element, and carrying that same random_v as Some(random_v). -/
theorem claim_c7 (dgen : ℕ → F) (p : List F) (gp : GlobalParameters F)
    (cache : Option (Toeplitz1Cache F)) (rand : ℕ → F) (k : ℕ)
    (hd : p.length = 2 ^ k) (hlen : p.length ≤ gp.powersOfG.length) :
    ∃ proofs, fk20_batch_generate_elements_proofs dgen p gp cache rand = some proofs ∧
      proofs.length = p.length ∧
      ∀ i, i < p.length → proofs.getD i ⟨0, none⟩ =
        ⟨(fft (dgen p.length) p.length (fk20_h_vector dgen p gp cache)).getD i 0 +
          rand i * gp.powersOfG.getD 0 0, some (rand i)⟩ := by
  have hpow : isPowerOfTwo p.length = true := (isPowerOfTwo_true_iff _).mpr ⟨k, hd⟩
  refine ⟨_, fk20_eq_some dgen p gp cache rand hlen hpow, ?_, ?_⟩
  · rw [List.length_map, List.length_zip, fft_length, List.length_range]
    omega
  · intro i hi
    rw [fk20_proofs_getD dgen p gp cache rand i hi, mul_comm (gp.powersOfG.getD 0 0) (rand i)]

/-- C8: a call whose polynomial length is not a power of two or exceeds the
SRS length fails fast (the debug_assert guards, modelled as a fail-fast none)
and produces no proofs. -/
theorem claim_c8 (dgen : ℕ → F) (p : List F) (gp : GlobalParameters F)
    (cache : Option (Toeplitz1Cache F)) (rand : ℕ → F)
    (h : (¬ ∃ k, p.length = 2 ^ k) ∨ gp.powersOfG.length < p.length) :
    fk20_batch_generate_elements_proofs dgen p gp cache rand = none := by
  rw [fk20_batch_generate_elements_proofs, if_neg]
  rintro ⟨h1, h2⟩
  rcases h with h | h
  · exact h ((isPowerOfTwo_true_iff _).mp h2)
  · omega

lemma verify_element_proof_unblind (i : ℕ) (v C x r ω : F) (gp : GlobalParameters F) :
    verify_element_proof i v C ⟨x + r, some r⟩ ω gp =
      verify_element_proof i v C ⟨x, none⟩ ω gp := by
  simp only [verify_element_proof, Option.getD_some, Option.getD_none,
    add_sub_cancel_right, sub_zero]

/-- C2: batched generation with a Toeplitz1Cache built by with_size for the
same global parameters and degree succeeds exactly like the cache-free call,
and for every index the two proofs verify identically against any
(commitment, domain point, evaluation) triple, whatever blinding randomness
each run drew. -/
theorem claim_c2 (dgen : ℕ → F) (p : List F) (gp : GlobalParameters F)
    (rand1 rand2 : ℕ → F) (k : ℕ) (hd : p.length = 2 ^ k)
    (hlen : p.length ≤ gp.powersOfG.length) (hg0 : gp.powersOfG.getD 0 0 = 1) :
    ∃ cached plain,
      fk20_batch_generate_elements_proofs dgen p gp
          (some (Toeplitz1Cache.with_size dgen gp p.length)) rand1 = some cached ∧
      fk20_batch_generate_elements_proofs dgen p gp none rand2 = some plain ∧
      cached.length = p.length ∧ plain.length = p.length ∧
      ∀ i v C ω, i < p.length →
        verify_element_proof i v C (cached.getD i ⟨0, none⟩) ω gp =
          verify_element_proof i v C (plain.getD i ⟨0, none⟩) ω gp := by
  have hpow : isPowerOfTwo p.length = true := (isPowerOfTwo_true_iff _).mpr ⟨k, hd⟩
  have hcv : fk20_h_vector dgen p gp (some (Toeplitz1Cache.with_size dgen gp p.length)) =
      fk20_h_vector dgen p gp none := rfl
  refine ⟨_, _, fk20_eq_some dgen p gp _ rand1 hlen hpow,
    fk20_eq_some dgen p gp none rand2 hlen hpow, ?_, ?_, ?_⟩
  · rw [List.length_map, List.length_zip, fft_length, List.length_range]
    omega
  · rw [List.length_map, List.length_zip, fft_length, List.length_range]
    omega
  · intro i v C ω hi
    rw [fk20_proofs_getD dgen p gp _ rand1 i hi, fk20_proofs_getD dgen p gp none rand2 i hi,
      hcv, hg0, one_mul, one_mul, verify_element_proof_unblind,
      verify_element_proof_unblind]

end Fk20Structural

/-! Concrete instances used by the FK20 witnesses. -/

def pQ : List ℚ := [5, 7]

def gpQ : GlobalParameters ℚ := ⟨[1, 3, 9], 3⟩

def gpEmptyQ : GlobalParameters ℚ := ⟨[], 0⟩

def dgenQ : ℕ → ℚ := fun _ => 1

def randQ : ℕ → ℚ := fun j => (j : ℚ) + 2

def randQ2 : ℕ → ℚ := fun j => (j : ℚ) + 5

theorem claim_c7_witness :
    pQ.length = 2 ^ 1 ∧ pQ.length ≤ gpQ.powersOfG.length ∧
    ∃ proofs, fk20_batch_generate_elements_proofs dgenQ pQ gpQ none randQ = some proofs ∧
      proofs.length = pQ.length ∧
      ∀ i, i < pQ.length → proofs.getD i ⟨0, none⟩ =
        ⟨(fft (dgenQ pQ.length) pQ.length (fk20_h_vector dgenQ pQ gpQ none)).getD i 0 +
          randQ i * gpQ.powersOfG.getD 0 0, some (randQ i)⟩ :=
  ⟨by decide, by decide, claim_c7 dgenQ pQ gpQ none randQ 1 (by decide) (by decide)⟩

theorem claim_c8_witness :
    ((¬ ∃ k, [(1 : ℚ)].length = 2 ^ k) ∨ gpEmptyQ.powersOfG.length < [(1 : ℚ)].length) ∧
    fk20_batch_generate_elements_proofs dgenQ [(1 : ℚ)] gpEmptyQ none randQ = none :=
  ⟨Or.inr (by decide), claim_c8 dgenQ [(1 : ℚ)] gpEmptyQ none randQ (Or.inr (by decide))⟩

theorem claim_c2_witness :
    pQ.length = 2 ^ 1 ∧ pQ.length ≤ gpQ.powersOfG.length ∧
    gpQ.powersOfG.getD 0 0 = 1 ∧
    ∃ cached plain,
      fk20_batch_generate_elements_proofs dgenQ pQ gpQ
          (some (Toeplitz1Cache.with_size dgenQ gpQ pQ.length)) randQ = some cached ∧
      fk20_batch_generate_elements_proofs dgenQ pQ gpQ none randQ2 = some plain ∧
      cached.length = pQ.length ∧ plain.length = pQ.length ∧
      ∀ i v C ω, i < pQ.length →
        verify_element_proof i v C (cached.getD i ⟨0, none⟩) ω gpQ =
          verify_element_proof i v C (plain.getD i ⟨0, none⟩) ω gpQ :=
  ⟨by decide, by decide, by decide,
    claim_c2 dgenQ pQ gpQ randQ randQ2 1 (by decide) (by decide) (by decide)⟩

end NomosDA

namespace NomosDA

section RootLemmas

variable {F : Type} [Field F]

lemma root_pow_mod (ψ : F) (n : ℕ) (h1 : ψ ^ n = 1) (m : ℕ) :
    ψ ^ m = ψ ^ (m % n) := by
  conv_lhs => rw [← Nat.div_add_mod m n]
  rw [pow_add, pow_mul, h1, one_pow, one_mul]

lemma root_pow_eq_one_iff (ψ : F) (n : ℕ) (hn : 0 < n) (h1 : ψ ^ n = 1)
    (hprim : ∀ m, m < n → 0 < m → ψ ^ m ≠ 1) (m : ℕ) :
    ψ ^ m = 1 ↔ n ∣ m := by
  constructor
  · intro h
    rw [root_pow_mod ψ n h1] at h
    by_contra hnd
    have h2 : m % n < n := Nat.mod_lt _ hn
    have h3 : 0 < m % n := by
      rcases Nat.eq_zero_or_pos (m % n) with h0 | h0
      · exact absurd (Nat.dvd_of_mod_eq_zero h0) hnd
      · exact h0
    exact hprim _ h2 h3 h
  · rintro ⟨q, rfl⟩
    rw [pow_mul, h1, one_pow]

lemma geom_sum_root (ψ : F) (n : ℕ) (hn : 0 < n) (h1 : ψ ^ n = 1)
    (hprim : ∀ m, m < n → 0 < m → ψ ^ m ≠ 1) (m : ℕ) :
    ∑ r ∈ Finset.range n, ψ ^ (r * m) = if n ∣ m then (n : F) else 0 := by
  by_cases hdv : n ∣ m
  · rw [if_pos hdv]
    have hone : ∀ r ∈ Finset.range n, ψ ^ (r * m) = 1 := by
      intro r _
      rw [mul_comm, pow_mul, (root_pow_eq_one_iff ψ n hn h1 hprim m).mpr hdv, one_pow]
    rw [Finset.sum_congr rfl hone]
    simp
  · rw [if_neg hdv]
    have hx : ψ ^ m ≠ 1 := fun h => hdv ((root_pow_eq_one_iff ψ n hn h1 hprim m).mp h)
    have hsw : ∀ r ∈ Finset.range n, ψ ^ (r * m) = (ψ ^ m) ^ r := by
      intro r _
      rw [← pow_mul, mul_comm]
    rw [Finset.sum_congr rfl hsw, geom_sum_eq hx, ← pow_mul, mul_comm m n, pow_mul, h1,
      one_pow, sub_self, zero_div]

lemma psi_inv_eq (ψ : F) (n : ℕ) (hn : 0 < n) (h1 : ψ ^ n = 1) : ψ⁻¹ = ψ ^ (n - 1) := by
  have h2 : n - 1 + 1 = n := by omega
  have h3 : ψ * ψ ^ (n - 1) = 1 := by
    calc ψ * ψ ^ (n - 1) = ψ ^ (n - 1 + 1) := (pow_succ' ψ (n - 1)).symm
      _ = 1 := by rw [h2, h1]
  exact inv_eq_of_mul_eq_one_right h3

lemma range_filter_lt (k d : ℕ) (hk : k ≤ d) :
    (Finset.range d).filter (fun j => j < k) = Finset.range k := by
  ext x
  simp only [Finset.mem_filter, Finset.mem_range]
  omega

lemma Ico_eq_filter (i d : ℕ) :
    Finset.Ico (i + 1) d = (Finset.range d).filter (fun k => i + 1 ≤ k) := by
  ext x
  simp only [Finset.mem_filter, Finset.mem_range, Finset.mem_Ico]
  omega

lemma tri_swap (d : ℕ) (G : ℕ → ℕ → F) :
    ∑ j ∈ Finset.range d, ∑ k ∈ Finset.Ico (j + 1) d, G j k =
      ∑ k ∈ Finset.range d, ∑ j ∈ Finset.range k, G j k := by
  calc ∑ j ∈ Finset.range d, ∑ k ∈ Finset.Ico (j + 1) d, G j k
      = ∑ j ∈ Finset.range d, ∑ k ∈ Finset.range d,
          if j + 1 ≤ k then G j k else 0 := by
        refine Finset.sum_congr rfl fun j _ => ?_
        rw [Ico_eq_filter, Finset.sum_filter]
    _ = ∑ k ∈ Finset.range d, ∑ j ∈ Finset.range d,
          if j + 1 ≤ k then G j k else 0 := Finset.sum_comm
    _ = ∑ k ∈ Finset.range d, ∑ j ∈ Finset.range k, G j k := by
        refine Finset.sum_congr rfl fun k hk => ?_
        rw [Finset.mem_range] at hk
        rw [← range_filter_lt k d (le_of_lt hk), Finset.sum_filter]
        exact Finset.sum_congr rfl fun j _ => if_congr (by omega) rfl rfl

lemma dvd_cond_iff (d i j k : ℕ) (hd : 0 < d) (hi : i < d) (hj : j < d) (hk : k < d) :
    (d + d) ∣ ((d + d - 1) * i + j + (d + k)) ↔ j + k = i + d := by
  have e1 : (d + d - 1) * i + i = (d + d) * i := by
    have h2 : d + d - 1 + 1 = d + d := by omega
    calc (d + d - 1) * i + i = ((d + d - 1) + 1) * i := by ring
      _ = (d + d) * i := by rw [h2]
  constructor
  · rintro ⟨q, hq⟩
    rcases Nat.lt_trichotomy q (i + 1) with h | h | h
    · have hle : q ≤ i := by omega
      have hmul : (d + d) * q ≤ (d + d) * i := Nat.mul_le_mul_left _ hle
      omega
    · subst h
      have hmul : (d + d) * (i + 1) = (d + d) * i + (d + d) := by ring
      omega
    · have hge : i + 2 ≤ q := by omega
      have hmul : (d + d) * (i + 2) ≤ (d + d) * q := Nat.mul_le_mul_left _ hge
      have h3 : (d + d) * (i + 2) = (d + d) * i + (d + d) + (d + d) := by ring
      omega
  · intro hjk
    refine ⟨i + 1, ?_⟩
    have hmul : (d + d) * (i + 1) = (d + d) * i + (d + d) := by ring
    omega

lemma sum_range_split_zero_right (n d : ℕ) (hdn : d ≤ n) (f : ℕ → F)
    (hz : ∀ j, d ≤ j → j < n → f j = 0) :
    ∑ j ∈ Finset.range n, f j = ∑ j ∈ Finset.range d, f j := by
  rw [Finset.range_eq_Ico, ← Finset.sum_Ico_consecutive f (Nat.zero_le d) hdn]
  have hzz : ∑ j ∈ Finset.Ico d n, f j = 0 :=
    Finset.sum_eq_zero fun j hj => by
      rw [Finset.mem_Ico] at hj
      exact hz j hj.1 hj.2
  rw [hzz, add_zero]

lemma sum_range_split_shift (n d : ℕ) (hdn : d + d = n) (f : ℕ → F)
    (hz : ∀ k, k < d → f k = 0) :
    ∑ k ∈ Finset.range n, f k = ∑ k ∈ Finset.range d, f (d + k) := by
  rw [Finset.range_eq_Ico, ← Finset.sum_Ico_consecutive f (Nat.zero_le d) (by omega)]
  have h0 : ∑ k ∈ Finset.Ico 0 d, f k = 0 :=
    Finset.sum_eq_zero fun k hk => by
      rw [Finset.mem_Ico] at hk
      exact hz k hk.2
  rw [h0, zero_add, Finset.sum_Ico_eq_sum_range]
  have hnd : n - d = d := by omega
  rw [hnd, Finset.range_eq_Ico]

end RootLemmas

end NomosDA

namespace NomosDA

section ConvLemma

variable {F : Type} [Field F] [DecidableEq F]

lemma h_vector_conv (ψ τ : F) (d : ℕ) (hd : 0 < d)
    (h1 : ψ ^ (d + d) = 1) (hprim : ∀ m, m < d + d → 0 < m → ψ ^ m ≠ 1)
    (hchar : ((d + d : ℕ) : F) ≠ 0)
    (a t p : List F)
    (ha : ∀ j, a.getD j 0 = if j < d then τ ^ (d - 1 - j) else 0)
    (ht : ∀ k, t.getD k 0 = if k < d then 0 else p.getD (k - d) 0)
    (i : ℕ) (hi : i < d) :
    (ifft ψ (d + d) (((fft ψ (d + d) a).zip (fft ψ (d + d) t)).map fun vc =>
        vc.1 * vc.2)).getD i 0 =
      ∑ k ∈ Finset.Ico (i + 1) d, p.getD k 0 * τ ^ (k - 1 - i) := by
  have hn0 : 0 < d + d := by omega
  have hi2 : i < d + d := by omega
  have hinv : ψ⁻¹ = ψ ^ (d + d - 1) := psi_inv_eq ψ (d + d) hn0 h1
  have hLgetD : ∀ r, r < d + d →
      (((fft ψ (d + d) a).zip (fft ψ (d + d) t)).map fun vc => vc.1 * vc.2).getD r 0 =
        (∑ j ∈ Finset.range (d + d), ψ ^ (r * j) * a.getD j 0) *
          (∑ j ∈ Finset.range (d + d), ψ ^ (r * j) * t.getD j 0) := by
    intro r hr
    have hfa : r < (fft ψ (d + d) a).length := by rw [fft_length]; exact hr
    have hft : r < (fft ψ (d + d) t).length := by rw [fft_length]; exact hr
    have hzz : r < ((fft ψ (d + d) a).zip (fft ψ (d + d) t)).length := by
      rw [List.length_zip, fft_length, fft_length]; omega
    have hmm : r < (((fft ψ (d + d) a).zip (fft ψ (d + d) t)).map fun vc =>
        vc.1 * vc.2).length := by
      rw [List.length_map]; exact hzz
    rw [List.getD_eq_getElem _ _ hmm]
    simp only [List.getElem_map, List.getElem_zip]
    rw [← List.getD_eq_getElem (fft ψ (d + d) a) 0 hfa,
      ← List.getD_eq_getElem (fft ψ (d + d) t) 0 hft,
      fft_getD ψ (d + d) a r hr, fft_getD ψ (d + d) t r hr]
  have step1 : ∑ r ∈ Finset.range (d + d), ψ⁻¹ ^ (i * r) *
      (((fft ψ (d + d) a).zip (fft ψ (d + d) t)).map fun vc => vc.1 * vc.2).getD r 0 =
      ∑ j ∈ Finset.range (d + d), ∑ k ∈ Finset.range (d + d),
        a.getD j 0 * t.getD k 0 *
          (if (d + d) ∣ ((d + d - 1) * i + j + k) then ((d + d : ℕ) : F) else 0) := by
    calc ∑ r ∈ Finset.range (d + d), ψ⁻¹ ^ (i * r) *
        (((fft ψ (d + d) a).zip (fft ψ (d + d) t)).map fun vc => vc.1 * vc.2).getD r 0
        = ∑ r ∈ Finset.range (d + d), ∑ j ∈ Finset.range (d + d),
            ∑ k ∈ Finset.range (d + d),
              a.getD j 0 * t.getD k 0 * ψ ^ (r * ((d + d - 1) * i + j + k)) := by
          refine Finset.sum_congr rfl fun r hr => ?_
          rw [Finset.mem_range] at hr
          rw [hLgetD r hr, hinv, ← pow_mul, Finset.sum_mul_sum, Finset.mul_sum]
          refine Finset.sum_congr rfl fun j _ => ?_
          rw [Finset.mul_sum]
          refine Finset.sum_congr rfl fun k _ => ?_
          have hexp : (d + d - 1) * (i * r) + (r * j + r * k) =
              r * ((d + d - 1) * i + j + k) := by ring
          calc ψ ^ ((d + d - 1) * (i * r)) * (ψ ^ (r * j) * a.getD j 0 *
                (ψ ^ (r * k) * t.getD k 0))
              = a.getD j 0 * t.getD k 0 *
                  (ψ ^ ((d + d - 1) * (i * r)) * (ψ ^ (r * j) * ψ ^ (r * k))) := by ring
            _ = a.getD j 0 * t.getD k 0 * ψ ^ (r * ((d + d - 1) * i + j + k)) := by
                rw [← pow_add, ← pow_add, hexp]
      _ = ∑ j ∈ Finset.range (d + d), ∑ r ∈ Finset.range (d + d),
            ∑ k ∈ Finset.range (d + d),
              a.getD j 0 * t.getD k 0 * ψ ^ (r * ((d + d - 1) * i + j + k)) :=
          Finset.sum_comm
      _ = ∑ j ∈ Finset.range (d + d), ∑ k ∈ Finset.range (d + d),
            a.getD j 0 * t.getD k 0 *
              (if (d + d) ∣ ((d + d - 1) * i + j + k) then ((d + d : ℕ) : F) else 0) := by
          refine Finset.sum_congr rfl fun j _ => ?_
          rw [Finset.sum_comm]
          refine Finset.sum_congr rfl fun k _ => ?_
          rw [← Finset.mul_sum, geom_sum_root ψ (d + d) hn0 h1 hprim]
  have step2 : ∑ j ∈ Finset.range (d + d), ∑ k ∈ Finset.range (d + d),
      a.getD j 0 * t.getD k 0 *
        (if (d + d) ∣ ((d + d - 1) * i + j + k) then ((d + d : ℕ) : F) else 0) =
      ∑ j ∈ Finset.range d, ∑ k ∈ Finset.range d,
        τ ^ (d - 1 - j) * p.getD k 0 *
          (if (d + d) ∣ ((d + d - 1) * i + j + (d + k)) then ((d + d : ℕ) : F) else 0) := by
    have hzj : ∀ j, d ≤ j → j < d + d →
        (∑ k ∈ Finset.range (d + d), a.getD j 0 * t.getD k 0 *
          (if (d + d) ∣ ((d + d - 1) * i + j + k) then ((d + d : ℕ) : F) else 0)) = 0 := by
      intro j hj1 _
      refine Finset.sum_eq_zero fun k _ => ?_
      rw [ha j, if_neg (by omega), zero_mul, zero_mul]
    rw [sum_range_split_zero_right (d + d) d (by omega) _ hzj]
    refine Finset.sum_congr rfl fun j hj => ?_
    rw [Finset.mem_range] at hj
    have hzk : ∀ k, k < d →
        a.getD j 0 * t.getD k 0 *
          (if (d + d) ∣ ((d + d - 1) * i + j + k) then ((d + d : ℕ) : F) else 0) = 0 := by
      intro k hk
      rw [ht k, if_pos hk, mul_zero, zero_mul]
    rw [sum_range_split_shift (d + d) d rfl _ hzk]
    refine Finset.sum_congr rfl fun k hk => ?_
    rw [Finset.mem_range] at hk
    rw [ha j, if_pos hj, ht (d + k), if_neg (by omega)]
    have hsub : d + k - d = k := by omega
    rw [hsub]
  have step3 : ∑ j ∈ Finset.range d, ∑ k ∈ Finset.range d,
      τ ^ (d - 1 - j) * p.getD k 0 *
        (if (d + d) ∣ ((d + d - 1) * i + j + (d + k)) then ((d + d : ℕ) : F) else 0) =
      ∑ k ∈ Finset.Ico (i + 1) d, p.getD k 0 * τ ^ (k - 1 - i) * ((d + d : ℕ) : F) := by
    calc ∑ j ∈ Finset.range d, ∑ k ∈ Finset.range d,
        τ ^ (d - 1 - j) * p.getD k 0 *
          (if (d + d) ∣ ((d + d - 1) * i + j + (d + k)) then ((d + d : ℕ) : F) else 0)
        = ∑ j ∈ Finset.range d, ∑ k ∈ Finset.range d,
            τ ^ (d - 1 - j) * p.getD k 0 *
              (if j + k = i + d then ((d + d : ℕ) : F) else 0) := by
          refine Finset.sum_congr rfl fun j hj => Finset.sum_congr rfl fun k hk => ?_
          rw [Finset.mem_range] at hj hk
          congr 1
          exact if_congr (dvd_cond_iff d i j k hd hi hj hk) rfl rfl
      _ = ∑ k ∈ Finset.range d, ∑ j ∈ Finset.range d,
            τ ^ (d - 1 - j) * p.getD k 0 *
              (if j + k = i + d then ((d + d : ℕ) : F) else 0) := Finset.sum_comm
      _ = ∑ k ∈ Finset.range d,
            (if i + 1 ≤ k then p.getD k 0 * τ ^ (k - 1 - i) * ((d + d : ℕ) : F)
             else 0) := by
          refine Finset.sum_congr rfl fun k hk => ?_
          rw [Finset.mem_range] at hk
          calc ∑ j ∈ Finset.range d, τ ^ (d - 1 - j) * p.getD k 0 *
                (if j + k = i + d then ((d + d : ℕ) : F) else 0)
              = ∑ j ∈ Finset.range d,
                  (if j = i + d - k then
                    τ ^ (d - 1 - j) * p.getD k 0 * ((d + d : ℕ) : F) else 0) := by
                refine Finset.sum_congr rfl fun j _ => ?_
                by_cases hc : j = i + d - k
                · rw [if_pos (by omega), if_pos hc]
                · rw [if_neg (by omega), if_neg hc, mul_zero]
            _ = if i + d - k ∈ Finset.range d then
                  τ ^ (d - 1 - (i + d - k)) * p.getD k 0 * ((d + d : ℕ) : F) else 0 :=
                Finset.sum_ite_eq' (Finset.range d) (i + d - k) _
            _ = if i + 1 ≤ k then p.getD k 0 * τ ^ (k - 1 - i) * ((d + d : ℕ) : F)
                else 0 := by
                by_cases hik : i + 1 ≤ k
                · rw [if_pos (by simp only [Finset.mem_range]; omega), if_pos hik]
                  have he : d - 1 - (i + d - k) = k - 1 - i := by omega
                  rw [he]
                  ring
                · rw [if_neg (by simp only [Finset.mem_range]; omega), if_neg hik]
      _ = ∑ k ∈ Finset.Ico (i + 1) d,
            p.getD k 0 * τ ^ (k - 1 - i) * ((d + d : ℕ) : F) := by
          rw [Ico_eq_filter, Finset.sum_filter]
  rw [ifft_getD ψ (d + d) _ i hi2, step1, step2, step3, Finset.mul_sum]
  refine Finset.sum_congr rfl fun k _ => ?_
  calc ((d + d : ℕ) : F)⁻¹ * (p.getD k 0 * τ ^ (k - 1 - i) * ((d + d : ℕ) : F))
      = p.getD k 0 * τ ^ (k - 1 - i) * (((d + d : ℕ) : F) * ((d + d : ℕ) : F)⁻¹) := by
        ring
    _ = p.getD k 0 * τ ^ (k - 1 - i) := by rw [mul_inv_cancel₀ hchar, mul_one]

end ConvLemma

end NomosDA

namespace NomosDA

section HVectorBridge

variable {F : Type} [Field F] [DecidableEq F]

lemma getD_reverse_take (l : List F) (n j : ℕ) (hn : n ≤ l.length) (hj : j < n) :
    ((l.take n).reverse).getD j 0 = l.getD (n - 1 - j) 0 := by
  have h1 : j < (l.take n).reverse.length := by
    rw [List.length_reverse, List.length_take]
    omega
  have h2 : n - 1 - j < l.length := by omega
  rw [List.getD_eq_getElem _ _ h1, List.getD_eq_getElem _ _ h2]
  simp only [List.getElem_reverse, List.getElem_take]
  congr 1
  rw [List.length_take]
  omega

lemma getD_replicate_zero (n m : ℕ) : (List.replicate n (0 : F)).getD m 0 = 0 := by
  rcases Nat.lt_or_ge m n with h | h
  · rw [List.getD_eq_getElem _ _ (by simpa using h), List.getElem_replicate]
  · rw [List.getD_eq_default _ _ (by rw [List.length_replicate]; exact h)]

lemma fk20_h_vector_getD (dgen : ℕ → F) (p : List F) (gp : GlobalParameters F)
    (hd : 0 < p.length) (hlen : p.length ≤ gp.powersOfG.length)
    (hsrs : ∀ j, j < gp.powersOfG.length → gp.powersOfG.getD j 0 = gp.tau ^ j)
    (h1 : dgen (p.length * 2) ^ (p.length * 2) = 1)
    (hprim : ∀ m, m < p.length * 2 → 0 < m → dgen (p.length * 2) ^ m ≠ 1)
    (hchar : ((p.length * 2 : ℕ) : F) ≠ 0)
    (i : ℕ) (hi : i < p.length) :
    (fk20_h_vector dgen p gp none).getD i 0 =
      ∑ k ∈ Finset.Ico (i + 1) p.length, p.getD k 0 * gp.tau ^ (k - 1 - i) := by
  have h2 : p.length * 2 = p.length + p.length := mul_two _
  have hrevlen : ((gp.powersOfG.take p.length).reverse).length = p.length := by
    rw [List.length_reverse, List.length_take]
    omega
  have ha : ∀ j, ((gp.powersOfG.take p.length).reverse ++
      List.replicate p.length (0 : F)).getD j 0 =
      if j < p.length then gp.tau ^ (p.length - 1 - j) else 0 := by
    intro j
    by_cases hj : j < p.length
    · rw [if_pos hj,
        List.getD_append _ _ _ _ (by rw [hrevlen]; exact hj),
        getD_reverse_take gp.powersOfG p.length j hlen hj,
        hsrs _ (by omega)]
    · rw [if_neg hj,
        List.getD_append_right _ _ _ _ (by rw [hrevlen]; omega)]
      exact getD_replicate_zero _ _
  have ht : ∀ k, (List.replicate p.length (0 : F) ++ p).getD k 0 =
      if k < p.length then 0 else p.getD (k - p.length) 0 := by
    intro k
    by_cases hk : k < p.length
    · rw [if_pos hk,
        List.getD_append _ _ _ _ (by rw [List.length_replicate]; exact hk)]
      exact getD_replicate_zero _ _
    · rw [if_neg hk,
        List.getD_append_right _ _ _ _ (by rw [List.length_replicate]; omega),
        List.length_replicate]
  have hT : fk20_h_vector dgen p gp none =
      ifft (dgen (p.length + p.length)) (p.length + p.length)
        (((fft (dgen (p.length + p.length)) (p.length + p.length)
            ((gp.powersOfG.take p.length).reverse ++ List.replicate p.length 0)).zip
          (fft (dgen (p.length + p.length)) (p.length + p.length)
            (List.replicate p.length (0 : F) ++ p))).map fun vc => vc.1 * vc.2) := by
    have e1 : fk20_extended_vector dgen p gp none =
        fft (dgen (p.length + p.length)) (p.length + p.length)
          ((gp.powersOfG.take p.length).reverse ++ List.replicate p.length 0) := by
      show fft (dgen (p.length * 2)) (p.length * 2)
          ((gp.powersOfG.take p.length).reverse ++ List.replicate p.length 0) = _
      rw [h2]
    have e3 : (List.replicate p.length (0 : F) ++ p).length = p.length + p.length := by
      rw [List.length_append, List.length_replicate]
    have e2 : toeplitz2 dgen (List.replicate p.length (0 : F) ++ p)
        (fk20_extended_vector dgen p gp none) =
        ((fft (dgen (p.length + p.length)) (p.length + p.length)
            ((gp.powersOfG.take p.length).reverse ++ List.replicate p.length 0)).zip
          (fft (dgen (p.length + p.length)) (p.length + p.length)
            (List.replicate p.length (0 : F) ++ p))).map fun vc => vc.1 * vc.2 := by
      show ((fk20_extended_vector dgen p gp none).zip
          (fft (dgen (List.replicate p.length (0 : F) ++ p).length)
            (List.replicate p.length (0 : F) ++ p).length
            (List.replicate p.length (0 : F) ++ p))).map (fun vc => vc.1 * vc.2) = _
      rw [e3, e1]
    show toeplitz3 dgen (toeplitz2 dgen (List.replicate p.length (0 : F) ++ p)
        (fk20_extended_vector dgen p gp none)) = _
    rw [e2]
    show ifft (dgen (List.length _)) (List.length _) _ = _
    have e4 : (((fft (dgen (p.length + p.length)) (p.length + p.length)
        ((gp.powersOfG.take p.length).reverse ++ List.replicate p.length 0)).zip
          (fft (dgen (p.length + p.length)) (p.length + p.length)
            (List.replicate p.length (0 : F) ++ p))).map fun vc =>
              vc.1 * vc.2).length = p.length + p.length := by
      rw [List.length_map, List.length_zip, fft_length, fft_length]
      omega
    rw [e4]
  rw [h2] at h1 hprim hchar
  rw [hT]
  exact h_vector_conv (dgen (p.length + p.length)) gp.tau p.length hd h1 hprim hchar
    ((gp.powersOfG.take p.length).reverse ++ List.replicate p.length 0)
    (List.replicate p.length (0 : F) ++ p) p ha ht i hi

end HVectorBridge

end NomosDA

namespace NomosDA

section WitnessLemmas

variable {F : Type} [Field F] [DecidableEq F]

lemma witnessPoly_length (p : List F) (u : F) :
    (witnessPoly p u).length = p.length - 1 := by
  rw [witnessPoly, List.length_map, List.length_range]

lemma witnessPoly_getD (p : List F) (u : F) (j : ℕ) (hj : j < p.length - 1) :
    (witnessPoly p u).getD j 0 =
      ∑ k ∈ Finset.Ico (j + 1) p.length, p.getD k 0 * u ^ (k - 1 - j) :=
  getD_map_range _ _ j hj 0

lemma evalPoly_witnessPoly (p : List F) (u x : F) :
    evalPoly (witnessPoly p u) x =
      ∑ k ∈ Finset.range p.length, p.getD k 0 *
        ∑ j ∈ Finset.range k, u ^ (k - 1 - j) * x ^ j := by
  rw [evalPoly, witnessPoly_length]
  calc ∑ j ∈ Finset.range (p.length - 1), (witnessPoly p u).getD j 0 * x ^ j
      = ∑ j ∈ Finset.range (p.length - 1),
          ∑ k ∈ Finset.Ico (j + 1) p.length, p.getD k 0 * u ^ (k - 1 - j) * x ^ j := by
        refine Finset.sum_congr rfl fun j hj => ?_
        rw [Finset.mem_range] at hj
        rw [witnessPoly_getD p u j hj, Finset.sum_mul]
    _ = ∑ j ∈ Finset.range p.length,
          ∑ k ∈ Finset.Ico (j + 1) p.length, p.getD k 0 * u ^ (k - 1 - j) * x ^ j := by
        refine (sum_range_split_zero_right p.length (p.length - 1) (by omega) _ ?_).symm
        intro j hj1 _
        rw [Finset.Ico_eq_empty (by omega), Finset.sum_empty]
    _ = ∑ k ∈ Finset.range p.length, ∑ j ∈ Finset.range k,
          p.getD k 0 * u ^ (k - 1 - j) * x ^ j :=
        tri_swap p.length _
    _ = ∑ k ∈ Finset.range p.length, p.getD k 0 *
          ∑ j ∈ Finset.range k, u ^ (k - 1 - j) * x ^ j := by
        refine Finset.sum_congr rfl fun k _ => ?_
        rw [Finset.mul_sum]
        refine Finset.sum_congr rfl fun j _ => ?_
        ring

lemma witness_mul (p : List F) (u x : F) :
    evalPoly (witnessPoly p u) x * (x - u) = evalPoly p x - evalPoly p u := by
  rw [evalPoly_witnessPoly, Finset.sum_mul]
  have hpt : ∀ k ∈ Finset.range p.length,
      (p.getD k 0 * ∑ j ∈ Finset.range k, u ^ (k - 1 - j) * x ^ j) * (x - u) =
      p.getD k 0 * x ^ k - p.getD k 0 * u ^ k := by
    intro k _
    have hsw : (∑ j ∈ Finset.range k, u ^ (k - 1 - j) * x ^ j) =
        ∑ j ∈ Finset.range k, x ^ j * u ^ (k - 1 - j) := by
      refine Finset.sum_congr rfl fun j _ => ?_
      ring
    calc (p.getD k 0 * ∑ j ∈ Finset.range k, u ^ (k - 1 - j) * x ^ j) * (x - u)
        = p.getD k 0 * ((∑ j ∈ Finset.range k, x ^ j * u ^ (k - 1 - j)) * (x - u)) := by
          rw [mul_assoc, hsw]
      _ = p.getD k 0 * (x ^ k - u ^ k) := by rw [geom_sum₂_mul x u k]
      _ = p.getD k 0 * x ^ k - p.getD k 0 * u ^ k := by ring
  rw [Finset.sum_congr rfl hpt, Finset.sum_sub_distrib, evalPoly, evalPoly]

lemma fk20_w_eq_witness_eval (dgen : ℕ → F) (p : List F) (gp : GlobalParameters F)
    (hd : 0 < p.length) (hlen : p.length ≤ gp.powersOfG.length)
    (hsrs : ∀ j, j < gp.powersOfG.length → gp.powersOfG.getD j 0 = gp.tau ^ j)
    (h1 : dgen (p.length * 2) ^ (p.length * 2) = 1)
    (hprim : ∀ m, m < p.length * 2 → 0 < m → dgen (p.length * 2) ^ m ≠ 1)
    (hchar : ((p.length * 2 : ℕ) : F) ≠ 0)
    (m : ℕ) (hm : m < p.length) :
    (fft (dgen p.length) p.length (fk20_h_vector dgen p gp none)).getD m 0 =
      evalPoly (witnessPoly p (dgen p.length ^ m)) gp.tau := by
  rw [fft_getD _ _ _ m hm]
  calc ∑ j ∈ Finset.range p.length,
      dgen p.length ^ (m * j) * (fk20_h_vector dgen p gp none).getD j 0
      = ∑ j ∈ Finset.range p.length, dgen p.length ^ (m * j) *
          ∑ k ∈ Finset.Ico (j + 1) p.length, p.getD k 0 * gp.tau ^ (k - 1 - j) := by
        refine Finset.sum_congr rfl fun j hj => ?_
        rw [Finset.mem_range] at hj
        rw [fk20_h_vector_getD dgen p gp hd hlen hsrs h1 hprim hchar j hj]
    _ = ∑ j ∈ Finset.range p.length, ∑ k ∈ Finset.Ico (j + 1) p.length,
          p.getD k 0 * gp.tau ^ (k - 1 - j) * dgen p.length ^ (m * j) := by
        refine Finset.sum_congr rfl fun j _ => ?_
        rw [Finset.mul_sum]
        refine Finset.sum_congr rfl fun k _ => ?_
        ring
    _ = ∑ k ∈ Finset.range p.length, ∑ j ∈ Finset.range k,
          p.getD k 0 * gp.tau ^ (k - 1 - j) * dgen p.length ^ (m * j) :=
        tri_swap p.length _
    _ = evalPoly (witnessPoly p (dgen p.length ^ m)) gp.tau := by
        rw [evalPoly_witnessPoly]
        refine Finset.sum_congr rfl fun k _ => ?_
        rw [Finset.mul_sum]
        calc ∑ j ∈ Finset.range k, p.getD k 0 * gp.tau ^ (k - 1 - j) *
              dgen p.length ^ (m * j)
            = ∑ j ∈ Finset.range k, p.getD k 0 * gp.tau ^ (k - 1 - j) *
                (dgen p.length ^ m) ^ j := by
              refine Finset.sum_congr rfl fun j _ => ?_
              rw [pow_mul]
          _ = ∑ j ∈ Finset.range k, p.getD k 0 * gp.tau ^ (k - 1 - (k - 1 - j)) *
                (dgen p.length ^ m) ^ (k - 1 - j) :=
              (Finset.sum_range_reflect
                (fun j => p.getD k 0 * gp.tau ^ (k - 1 - j) *
                  (dgen p.length ^ m) ^ j) k).symm
          _ = ∑ j ∈ Finset.range k, p.getD k 0 *
                ((dgen p.length ^ m) ^ (k - 1 - j) * gp.tau ^ j) := by
              refine Finset.sum_congr rfl fun j hj => ?_
              rw [Finset.mem_range] at hj
              have he : k - 1 - (k - 1 - j) = j := by omega
              rw [he]
              ring

lemma commit_eq_eval (p : List F) (gp : GlobalParameters F)
    (hlen : p.length ≤ gp.powersOfG.length)
    (hsrs : ∀ j, j < gp.powersOfG.length → gp.powersOfG.getD j 0 = gp.tau ^ j) :
    commit_polynomial p gp = some (evalPoly p gp.tau) := by
  rw [commit_polynomial, if_neg (by omega)]
  congr 1
  rw [evalPoly]
  refine Finset.sum_congr rfl fun j hj => ?_
  rw [Finset.mem_range] at hj
  rw [hsrs j (by omega)]

/-- C1: for every polynomial of power-of-two degree d within the SRS, the i-th
proof of fk20_batch_generate_elements_proofs verifies against the same
(commitment, domain[i], evaluation[i]) triple as an independently generated
single-point opening proof for index i; the two proofs are interchangeable
inputs to the pairing-check verify and differ in w only by the random
blinding term times the SRS generator. -/
theorem claim_c1 (dgen : ℕ → F) (p : List F) (gp : GlobalParameters F) (rand : ℕ → F)
    (k : ℕ) (hd : p.length = 2 ^ k)
    (hlen : p.length ≤ gp.powersOfG.length)
    (hsrs : ∀ j, j < gp.powersOfG.length → gp.powersOfG.getD j 0 = gp.tau ^ j)
    (h1 : dgen (p.length * 2) ^ (p.length * 2) = 1)
    (hprim : ∀ m, m < p.length * 2 → 0 < m → dgen (p.length * 2) ^ m ≠ 1)
    (hchar : ((p.length * 2 : ℕ) : F) ≠ 0)
    (i : ℕ) (hi : i < p.length) :
    ∃ proofs single C,
      fk20_batch_generate_elements_proofs dgen p gp none rand = some proofs ∧
      commit_polynomial p gp = some C ∧
      generate_element_proof i p (dgen p.length) gp = some single ∧
      verify_element_proof i (evalPoly p (dgen p.length ^ i)) C
        (proofs.getD i ⟨0, none⟩) (dgen p.length) gp = true ∧
      verify_element_proof i (evalPoly p (dgen p.length ^ i)) C single
        (dgen p.length) gp = true ∧
      (proofs.getD i ⟨0, none⟩).w - single.w =
        gp.powersOfG.getD 0 0 * ((proofs.getD i ⟨0, none⟩).random_v.getD 0) := by
  have hd0 : 0 < p.length := by
    rw [hd]
    exact pow_pos (by norm_num) k
  have hpow : isPowerOfTwo p.length = true := (isPowerOfTwo_true_iff _).mpr ⟨k, hd⟩
  have hg0 : gp.powersOfG.getD 0 0 = 1 := by
    rw [hsrs 0 (by omega), pow_zero]
  have hwlen : (witnessPoly p (dgen p.length ^ i)).length ≤ gp.powersOfG.length := by
    rw [witnessPoly_length]
    omega
  have hcommit : commit_polynomial p gp = some (evalPoly p gp.tau) :=
    commit_eq_eval p gp hlen hsrs
  have hsingle : generate_element_proof i p (dgen p.length) gp =
      some ⟨evalPoly (witnessPoly p (dgen p.length ^ i)) gp.tau, none⟩ := by
    rw [generate_element_proof, commit_eq_eval _ gp hwlen hsrs]
  have hw := fk20_w_eq_witness_eval dgen p gp hd0 hlen hsrs h1 hprim hchar i hi
  have hgw : (((fft (dgen p.length) p.length (fk20_h_vector dgen p gp none)).zip
      (List.range p.length)).map fun gi =>
        (⟨gi.1 + gp.powersOfG.getD 0 0 * rand gi.2, some (rand gi.2)⟩ : Proof F)).getD i
      ⟨0, none⟩ =
      ⟨evalPoly (witnessPoly p (dgen p.length ^ i)) gp.tau + rand i, some (rand i)⟩ := by
    rw [fk20_proofs_getD dgen p gp none rand i hi, hg0, one_mul, hw]
  refine ⟨_, _, _, fk20_eq_some dgen p gp none rand hlen hpow, hcommit, hsingle,
    ?_, ?_, ?_⟩
  · rw [hgw]
    simp only [verify_element_proof, Option.getD_some, add_sub_cancel_right,
      decide_eq_true_eq]
    exact (witness_mul p (dgen p.length ^ i) gp.tau).symm
  · simp only [verify_element_proof, Option.getD_none, sub_zero, decide_eq_true_eq]
    exact (witness_mul p (dgen p.length ^ i) gp.tau).symm
  · rw [hgw]
    simp only [Option.getD_some, hg0, one_mul]
    ring

end WitnessLemmas

/-! Concrete instance used by the C1 witness: the field ZMod 17, whose
multiplicative group has order 16, with 4 a primitive fourth root of unity. -/

instance fact_prime_17 : Fact (Nat.Prime 17) := ⟨by norm_num⟩

def pZ : List (ZMod 17) := [5, 7]

def gpZ : GlobalParameters (ZMod 17) := ⟨[1, 3, 9], 3⟩

def dgenZ : ℕ → ZMod 17 := fun n => if n = 4 then 4 else 16

def randZ : ℕ → ZMod 17 := fun j => (j : ZMod 17) + 2

theorem claim_c1_witness :
    (pZ.length = 2 ^ 1) ∧ (pZ.length ≤ gpZ.powersOfG.length) ∧
    (∀ j, j < gpZ.powersOfG.length → gpZ.powersOfG.getD j 0 = gpZ.tau ^ j) ∧
    (dgenZ (pZ.length * 2) ^ (pZ.length * 2) = 1) ∧
    (∀ m, m < pZ.length * 2 → 0 < m → dgenZ (pZ.length * 2) ^ m ≠ 1) ∧
    (((pZ.length * 2 : ℕ) : ZMod 17) ≠ 0) ∧ (1 < pZ.length) ∧
    ∃ proofs single C,
      fk20_batch_generate_elements_proofs dgenZ pZ gpZ none randZ = some proofs ∧
      commit_polynomial pZ gpZ = some C ∧
      generate_element_proof 1 pZ (dgenZ pZ.length) gpZ = some single ∧
      verify_element_proof 1 (evalPoly pZ (dgenZ pZ.length ^ 1)) C
        (proofs.getD 1 ⟨0, none⟩) (dgenZ pZ.length) gpZ = true ∧
      verify_element_proof 1 (evalPoly pZ (dgenZ pZ.length ^ 1)) C single
        (dgenZ pZ.length) gpZ = true ∧
      (proofs.getD 1 ⟨0, none⟩).w - single.w =
        gpZ.powersOfG.getD 0 0 * ((proofs.getD 1 ⟨0, none⟩).random_v.getD 0) :=
  ⟨by decide, by decide, by decide, by decide, by decide, by decide, by decide,
    claim_c1 dgenZ pZ gpZ randZ 1 (by decide) (by decide) (by decide) (by decide)
      (by decide) (by decide) 1 (by decide)⟩

end NomosDA
